import Mathlib

/-!
Verification of the ontology loader/indexer inside the `owl-viewer`
component of the `ontology-utils` repository (`owl-viewer/src/App.tsx`).

The embedding models the parser `parseOWL`, the child query
`getChildNodes` and the recursive search predicate `hasMatchingChild`
(the spec calls the latter two `childrenOf` and `matchesSearch`).

Modelling decisions, all taken from the source:
* A document is represented after the DOM stage: `parseOWL` consumes the
  list of `owl:Class` elements, each carrying its `rdf:about` /
  `rdf:ID` attributes, the text contents of its nested `rdfs:label` and
  `rdfs:comment` elements, and the `rdf:resource` attribute of each
  nested `rdfs:subClassOf` element.  A string that the browser's DOM
  parser rejects produces a document with no `owl:Class` elements.
* JavaScript string truthiness (null / empty string are falsy) is made
  explicit through `truthy` and `jsOr`.
* A JavaScript `Map` is an insertion-ordered association list with
  unique keys; `Map.set` overwrites in place, `Map.get(k)!.push(v)`
  appends to the stored array.
* `Array.prototype.sort` with the label comparator is a stable sort
  under the comparator; it is embedded as a stable insertion sort
  `sortLe` parameterised by the boolean relation
  `lc a b` = "`a.localeCompare(b) <= 0`".  `localeCompare` itself is a
  platform collation, kept abstract as the parameter `lc`.
* `hasMatchingChild` recurses through `children` edges with no visited
  set; the recursion is embedded with explicit fuel, `none` meaning the
  JavaScript computation has not finished within the given depth, so
  `(∀ n, fuel-run n = none)` states that the source function never
  returns.
-/

/-- Lower-casing of a string, character by character, modelling
JavaScript `toLowerCase` on the identifiers and labels used here. -/
def toLowerS (s : String) : String := ⟨s.data.map Char.toLower⟩

/-- `startsWithL needle hay`: `needle` begins `hay` (character lists). -/
def startsWithL : List Char → List Char → Bool
  | [], _ => true
  | _ :: _, [] => false
  | a :: as, b :: bs => a == b && startsWithL as bs

/-- `containsL needle hay`: `needle` occurs contiguously in `hay`. -/
def containsL (needle : List Char) : List Char → Bool
  | [] => needle.isEmpty
  | b :: bs => startsWithL needle (b :: bs) || containsL needle bs

/-- JavaScript `hay.includes(needle)`. -/
def jsIncludes (hay needle : String) : Bool := containsL needle.data hay.data

/-- JavaScript `String.prototype.split` with a one-character
separator. -/
def splitOnChar (sep : Char) : List Char → List (List Char)
  | [] => [[]]
  | c :: cs =>
    if c == sep then [] :: splitOnChar sep cs
    else
      match splitOnChar sep cs with
      | [] => [[c]]
      | g :: gs => (c :: g) :: gs

/-- Last element of a list, or `none` for the empty list (JavaScript
`Array.prototype.pop` on the result of a split, which is never the
empty array). -/
def lastOpt {α : Type} : List α → Option α
  | [] => none
  | [a] => some a
  | _ :: b :: l => lastOpt (b :: l)

/-- Last element with a default. -/
def lastD {α : Type} (d : α) (l : List α) : α := (lastOpt l).getD d

/-- JavaScript truthiness of a nullable string: `null` and the empty
string are falsy. -/
def truthy : Option String → Option String
  | some s => if s.data.isEmpty then none else some s
  | none => none

/-- JavaScript `a || b` for a nullable string `a` and a string `b`. -/
def jsOr (a : Option String) (b : String) : String :=
  match truthy a with
  | some s => s
  | none => b

/-- One node of the hierarchy, exactly the `OntologyClass` interface of
the source. -/
structure OntologyClass where
  id : String
  label : String
  description : String
  children : List String
  parents : List String
deriving DecidableEq

/-- The parsed result, the `OntologyData` interface of the source
(`classMap` is the insertion-ordered `Map`). -/
structure OntologyData where
  classMap : List (String × OntologyClass)
  roots : List OntologyClass
deriving DecidableEq

/-- One `owl:Class` element as the source reads it off the DOM:
`rdf:about` and `rdf:ID` attributes (absent = `none`), the text
contents of the nested `rdfs:label` and `rdfs:comment` elements in
document order, and the `rdf:resource` attribute of each nested
`rdfs:subClassOf` element in document order. -/
structure ClassElem where
  aboutAttr : Option String
  idAttr : Option String
  labelTexts : List String
  commentTexts : List String
  subResources : List (Option String)
deriving DecidableEq

/-- `Map.get` on an insertion-ordered association list. -/
def getA {α : Type} : List (String × α) → String → Option α
  | [], _ => none
  | (k', v) :: rest, k => if k' == k then some v else getA rest k

/-- `Map.set`: overwrite in place when the key exists, append
otherwise. -/
def setA : List (String × OntologyClass) → String → OntologyClass →
    List (String × OntologyClass)
  | [], k, v => [(k, v)]
  | (k', v') :: rest, k, v =>
    if k' == k then (k', v) :: rest else (k', v') :: setA rest k v

/-- The source idiom `if (!m.has(k)) m.set(k, []); m.get(k)!.push(v)`:
append `v` to the list stored at `k`, creating the entry at the end
when missing. -/
def pushAt : List (String × List String) → String → String →
    List (String × List String)
  | [], k, v => [(k, [v])]
  | (k', l) :: rest, k, v =>
    if k' == k then (k', l ++ [v]) :: rest else (k', l) :: pushAt rest k v

/-- `m.get(k) || []`. -/
def getAD (m : List (String × List String)) (k : String) : List String :=
  (getA m k).getD []

/-- `cls.getAttribute('rdf:about') || cls.getAttribute('rdf:ID')`
followed by the `if (id)` truthiness test: the identifier under which
the class is indexed, or `none` when the declaration is skipped. -/
def extractId (c : ClassElem) : Option String :=
  match truthy c.aboutAttr with
  | some s => some s
  | none => truthy c.idAttr

/-- `id.split('#').pop()?.split('/').pop()`: the final segment after
first splitting on `#`, then on `/` (possibly the empty string). -/
def fallbackSeg (id : String) : String :=
  ⟨lastD [] (splitOnChar '/' (lastD [] (splitOnChar '#' id.data)))⟩

/-- The label expression of the source:
`labels[0]?.textContent || id.split('#').pop()?.split('/').pop() || id`. -/
def extractLabel (c : ClassElem) (id : String) : String :=
  jsOr c.labelTexts.head? (jsOr (some (fallbackSeg id)) id)

/-- `comments[0]?.textContent || ''`. -/
def extractDescription (c : ClassElem) : String :=
  jsOr c.commentTexts.head? ""

/-- The three maps the parser accumulates before the build step. -/
structure ParseState where
  classMap : List (String × OntologyClass)
  parentChildMap : List (String × List String)
  childParentMap : List (String × List String)

/-- The body of the inner `rdfs:subClassOf` loop: a truthy
`rdf:resource` records the edge in both directions. -/
def processSub (id : String) (st : ParseState) (sub : Option String) :
    ParseState :=
  match truthy sub with
  | none => st
  | some parent =>
    { st with
      parentChildMap := pushAt st.parentChildMap parent id,
      childParentMap := pushAt st.childParentMap id parent }

/-- The body of the outer `owl:Class` loop: index the class under its
extracted identifier (a declaration with no truthy identifier is
skipped), then scan its subclass edges. -/
def processClass (st : ParseState) (c : ClassElem) : ParseState :=
  match extractId c with
  | none => st
  | some id =>
    let st1 : ParseState :=
      { st with
        classMap := setA st.classMap id
          ⟨id, extractLabel c id, extractDescription c, [], []⟩ }
    c.subResources.foldl (processSub id) st1

/-- The two scanning loops of `parseOWL`, run over the whole
document. -/
def buildState (d : List ClassElem) : ParseState :=
  d.foldl processClass ⟨[], [], []⟩

/-- Stable insertion of `a` into `l`: `a` is placed before the first
element `b` with `le a b`. -/
def insertLe {α : Type} (le : α → α → Bool) (a : α) : List α → List α
  | [] => [a]
  | b :: bs => if le a b then a :: b :: bs else b :: insertLe le a bs

/-- Stable insertion sort, the embedding of the stable
`Array.prototype.sort`. -/
def sortLe {α : Type} (le : α → α → Bool) : List α → List α
  | [] => []
  | a :: l => insertLe le a (sortLe le l)

/-- The comparator `(a, b) => a.label.localeCompare(b.label)`, with the
locale comparison abstract as `lc`. -/
def labelLe (lc : String → String → Bool) (a b : OntologyClass) : Bool :=
  lc a.label b.label

/-- `parseOWL`: scan all class declarations, fill `children` and
`parents` from the two edge maps, compute the sorted root list with the
first-10 fallback. -/
def parseOWL (lc : String → String → Bool) (d : List ClassElem) :
    OntologyData :=
  let st := buildState d
  let classMap := st.classMap.map (fun p =>
    (p.1, { p.2 with
            children := getAD st.parentChildMap p.1,
            parents := getAD st.childParentMap p.1 }))
  let vals := classMap.map (fun p => p.2)
  let roots := vals.filter (fun n => n.parents.isEmpty)
  let sortedRoots :=
    if roots.isEmpty then sortLe (labelLe lc) (vals.take 10)
    else sortLe (labelLe lc) roots
  ⟨classMap, sortedRoots⟩

/-- `getChildNodes` (the spec's `childrenOf`): resolve the declared
children through the class map, drop unresolved identifiers, sort by
label. -/
def getChildNodes (lc : String → String → Bool) (d : OntologyData)
    (nodeId : String) : List OntologyClass :=
  match getA d.classMap nodeId with
  | none => []
  | some node => sortLe (labelLe lc) (node.children.filterMap (getA d.classMap))

/-- `Array.prototype.some` over the recursive calls on the children,
left to right, short-circuiting on the first `true`; `none` (exhausted
fuel in a child) is contagious because the JavaScript computation would
still be inside that child. -/
def anyChildF (f : String → Option Bool) : List String → Option Bool
  | [] => some false
  | c :: cs =>
    match f c with
    | none => none
    | some true => some true
    | some false => anyChildF f cs

/-- `hasMatchingChild` (the spec's `matchesSearch`) with explicit
recursion fuel: `some b` means the source recursion returns `b` within
depth `n`, `none` means it has not returned at that depth.  The source
carries no visited set, so the recursion is exactly this descent. -/
def hasMatchingChild (d : OntologyData) : Nat → String → String → Option Bool
  | 0, _, _ => none
  | n + 1, nodeId, term =>
    match getA d.classMap nodeId with
    | none => some false
    | some node =>
      if jsIncludes (toLowerS node.label) (toLowerS term) then some true
      else anyChildF (fun c => hasMatchingChild d n c term) node.children

/-- The declarations that get indexed: identifier, label and
description of every class element with a truthy identifier, in
document order. -/
def declsOf (d : List ClassElem) : List (String × String × String) :=
  d.filterMap (fun c => (extractId c).map
    (fun id => (id, extractLabel c id, extractDescription c)))

/-- The subclass edges `(child, parent)` one class element records. -/
def edgesOfClass (c : ClassElem) : List (String × String) :=
  match extractId c with
  | none => []
  | some id => (c.subResources.filterMap truthy).map (fun p => (id, p))

/-- All subclass edges of the document, in scan order. -/
def edgesOfDoc : List ClassElem → List (String × String)
  | [] => []
  | c :: cs => edgesOfClass c ++ edgesOfDoc cs

/-- The parent identifiers recorded for child `id`, in scan order. -/
def parentsSpec (d : List ClassElem) (id : String) : List String :=
  ((edgesOfDoc d).filter (fun e => e.1 == id)).map (fun e => e.2)

/-- The child identifiers recorded for parent `id`, in scan order. -/
def childrenSpec (d : List ClassElem) (id : String) : List String :=
  ((edgesOfDoc d).filter (fun e => e.2 == id)).map (fun e => e.1)

/-- Deduplication keeping the first occurrence, relative to an already
seen set: the key order of a JavaScript `Map` filled by repeated
`set`. -/
def dedupKeepFirst (seen : List String) : List String → List String
  | [] => []
  | a :: l =>
    if a ∈ seen then dedupKeepFirst seen l
    else a :: dedupKeepFirst (a :: seen) l

/-- One `children` edge of the index: `b` is listed among the children
of `a`. -/
def childEdge (d : OntologyData) (a b : String) : Prop :=
  ∃ node, getA d.classMap a = some node ∧ b ∈ node.children

/-- Reachability along `children` edges (zero or more steps), the
spec's "reachable by following `children` edges transitively". -/
inductive Reaches (d : OntologyData) : String → String → Prop
  | refl (a : String) : Reaches d a a
  | step {a b c : String} : childEdge d a b → Reaches d b c → Reaches d a c

/-- The node `id` exists and `term` is a case-insensitive substring of
its label. -/
def labelMatch (d : OntologyData) (id term : String) : Prop :=
  ∃ node, getA d.classMap id = some node ∧
    jsIncludes (toLowerS node.label) (toLowerS term) = true

/-- A concrete total, transitive comparator (compare by length) used to
instantiate the abstract locale comparator in concrete runs. -/
def lcLen (a b : String) : Bool := decide (a.data.length ≤ b.data.length)

/-- Class `A`, labelled `Alpha`, declared a subclass of `B`. -/
def elemA : ClassElem := ⟨some "A", none, ["Alpha"], [], [some "B"]⟩

/-- Class `B`, labelled `Beta`, declared a subclass of `A`. -/
def elemB : ClassElem := ⟨some "B", none, ["Beta"], [], [some "A"]⟩

/-- Class `M`, labelled `Match`, declared a subclass of `A`. -/
def elemM : ClassElem := ⟨some "M", none, ["Match"], [], [some "A"]⟩

/-- The two-node cycle of the spec's example: `A` parent of `B` and `B`
parent of `A`. -/
def cycIdx : OntologyData := parseOWL lcLen [elemA, elemB]

/-- The two-node cycle plus a reachable matching sibling `M` under
`A`. -/
def cycIdxM : OntologyData := parseOWL lcLen [elemA, elemB, elemM]

/-- The values of the class map, in insertion order
(`Array.from(classMap.values())`). -/
def valsOf (d : OntologyData) : List OntologyClass :=
  d.classMap.map (fun p => p.2)

/-- The classes of the index whose `parents` set is empty, in insertion
order: the raw root set before sorting. -/
def parentlessOf (d : OntologyData) : List OntologyClass :=
  (valsOf d).filter (fun n => n.parents.isEmpty)

/-- A declaration whose identifier ends in `#`: the final segment after
splitting is the empty string. -/
def c4elem : ClassElem := ⟨some "http://ex.org/a/b#", none, [], [], []⟩

/-- A declaration whose identifier has `Seg` as its final fragment. -/
def c4elemSeg : ClassElem := ⟨some "http://ex.org/x#Seg", none, [], [], []⟩

/-- A parentless class `A` labelled `Alpha`. -/
def rootElem : ClassElem := ⟨some "A", none, ["Alpha"], [], []⟩

/-- Class `B` labelled `Bravo`, subclass of `A`. -/
def bravoElem : ClassElem := ⟨some "B", none, ["Bravo"], [], [some "A"]⟩

/-- Class `C` labelled `Charlie`, subclass of `A`. -/
def charlieElem : ClassElem := ⟨some "C", none, ["Charlie"], [], [some "A"]⟩

/-- The three-class tree of the spec's worked example. -/
def treeDoc : List ClassElem := [rootElem, bravoElem, charlieElem]

/-- Its parsed index. -/
def treeIdx : OntologyData := parseOWL lcLen treeDoc

/-- Class `A` declaring the same subclass edge to `B` twice. -/
def dupEdgeElem : ClassElem :=
  ⟨some "A", none, ["Alpha"], [], [some "B", some "B"]⟩

/-- Class `B` with no edges. -/
def plainB : ClassElem := ⟨some "B", none, ["Beta"], [], []⟩

/-- Index of the duplicated-edge document. -/
def dupEdgeIdx : OntologyData := parseOWL lcLen [dupEdgeElem, plainB]

/-- First declaration carrying identifier `D`. -/
def dupIdFirst : ClassElem :=
  ⟨some "D", none, ["First"], ["first description"], [some "P"]⟩

/-- Second declaration carrying identifier `D`. -/
def dupIdSecond : ClassElem := ⟨some "D", none, ["Second"], [], [some "Q"]⟩

/-- A document declaring the identifier `D` twice. -/
def dupIdDoc : List ClassElem := [dupIdFirst, dupIdSecond]

/-- A malformed declaration: no `rdf:about`, and an `rdf:ID` that is
present but empty, so both identifier attributes are falsy. -/
def skipElem : ClassElem := ⟨none, some "", ["Lost"], [], [some "X"]⟩

/-- A class labelled `Metabolic Process`. -/
def metabElem : ClassElem := ⟨some "MP", none, ["Metabolic Process"], [], []⟩

/-- Its one-class index. -/
def metabIdx : OntologyData := parseOWL lcLen [metabElem]

/-- The empty needle occurs in every haystack. -/
theorem containsL_nil (l : List Char) : containsL [] l = true := by
  cases l <;> rfl

/-- Membership in a stable insertion. -/
theorem mem_insertLe {α : Type} (le : α → α → Bool) (a x : α) (l : List α) :
    x ∈ insertLe le a l ↔ x = a ∨ x ∈ l := by
  induction l with
  | nil => simp [insertLe]
  | cons b bs ih =>
    by_cases h : le a b = true
    · simp [insertLe, h]
    · simp [insertLe, h, ih]
      tauto

/-- Inserting is a permutation of consing. -/
theorem perm_insertLe {α : Type} (le : α → α → Bool) (a : α) (l : List α) :
    (insertLe le a l).Perm (a :: l) := by
  induction l with
  | nil => exact List.Perm.refl _
  | cons b bs ih =>
    by_cases h : le a b = true
    · simp [insertLe, h]
    · rw [insertLe, if_neg h]
      exact (ih.cons b).trans (List.Perm.swap a b bs)

/-- The stable sort is a permutation of its input. -/
theorem sortLe_perm {α : Type} (le : α → α → Bool) (l : List α) :
    (sortLe le l).Perm l := by
  induction l with
  | nil => exact List.Perm.refl _
  | cons a l ih => exact (perm_insertLe le a (sortLe le l)).trans (ih.cons a)

/-- Inserting into a sorted list keeps it sorted, for a transitive and
total comparator. -/
theorem pairwise_insertLe {α : Type} (le : α → α → Bool)
    (htrans : ∀ a b c, le a b = true → le b c = true → le a c = true)
    (htotal : ∀ a b, le a b = true ∨ le b a = true) (a : α) (l : List α)
    (h : l.Pairwise (fun x y => le x y = true)) :
    (insertLe le a l).Pairwise (fun x y => le x y = true) := by
  induction l with
  | nil => simp [insertLe]
  | cons b bs ih =>
    rw [List.pairwise_cons] at h
    obtain ⟨hb, hbs⟩ := h
    by_cases hab : le a b = true
    · rw [insertLe, if_pos hab]
      refine List.Pairwise.cons ?_ (List.Pairwise.cons hb hbs)
      intro y hy
      rcases List.mem_cons.mp hy with hyb | hybs
      · exact hyb ▸ hab
      · exact htrans a b y hab (hb y hybs)
    · rw [insertLe, if_neg hab]
      refine List.Pairwise.cons ?_ (ih hbs)
      intro y hy
      rcases (mem_insertLe le a y bs).mp hy with hya | hybs
      · rw [hya]
        rcases htotal a b with h1 | h2
        · exact absurd h1 hab
        · exact h2
      · exact hb y hybs

/-- The stable sort sorts, for a transitive and total comparator. -/
theorem sortLe_pairwise {α : Type} (le : α → α → Bool)
    (htrans : ∀ a b c, le a b = true → le b c = true → le a c = true)
    (htotal : ∀ a b, le a b = true ∨ le b a = true) (l : List α) :
    (sortLe le l).Pairwise (fun x y => le x y = true) := by
  induction l with
  | nil => simp [sortLe]
  | cons a l ih => exact pairwise_insertLe le htrans htotal a (sortLe le l) ih

/-- Sorting a non-empty list gives a non-empty list. -/
theorem sortLe_ne_nil {α : Type} (le : α → α → Bool) (l : List α)
    (h : l ≠ []) : sortLe le l ≠ [] := by
  intro hs
  apply h
  have := (sortLe_perm le l).length_eq
  rw [hs] at this
  exact List.length_eq_zero.mp this.symm

/-- An inserted element that every selected element weakly follows goes
to the front of the selection. -/
theorem filter_insertLe_pos {α : Type} (le : α → α → Bool) (p : α → Bool)
    (a : α) (l : List α) (hpa : p a = true)
    (h : ∀ b ∈ l, p b = true → le a b = true) :
    (insertLe le a l).filter p = a :: l.filter p := by
  induction l with
  | nil => simp [insertLe, hpa]
  | cons b bs ih =>
    by_cases hab : le a b = true
    · rw [insertLe, if_pos hab, List.filter_cons_of_pos hpa]
    · rw [insertLe, if_neg hab]
      have hpb : p b = false := by
        cases hpb : p b with
        | true => exact absurd (h b (List.mem_cons_self b bs) hpb) hab
        | false => rfl
      rw [List.filter_cons_of_neg (by simp [hpb]),
        List.filter_cons_of_neg (by simp [hpb])]
      exact ih (fun c hc hpc => h c (List.mem_cons_of_mem b hc) hpc)

/-- Inserting an unselected element leaves the selection unchanged. -/
theorem filter_insertLe_neg {α : Type} (le : α → α → Bool) (p : α → Bool)
    (a : α) (l : List α) (hpa : p a = false) :
    (insertLe le a l).filter p = l.filter p := by
  induction l with
  | nil => simp [insertLe, hpa]
  | cons b bs ih =>
    by_cases hab : le a b = true
    · rw [insertLe, if_pos hab, List.filter_cons_of_neg (by simp [hpa])]
    · rw [insertLe, if_neg hab]
      cases hpb : p b with
      | true =>
        rw [List.filter_cons_of_pos hpb, List.filter_cons_of_pos hpb, ih]
      | false =>
        rw [List.filter_cons_of_neg (by simp [hpb]),
          List.filter_cons_of_neg (by simp [hpb]), ih]

/-- Stability of `sortLe`: the elements selected by `p`, when they all
tie under `le`, appear in the sorted output in their original relative
order. -/
theorem filter_sortLe {α : Type} (le : α → α → Bool) (p : α → Bool)
    (l : List α)
    (h : ∀ x ∈ l, ∀ y ∈ l, p x = true → p y = true → le x y = true) :
    (sortLe le l).filter p = l.filter p := by
  induction l with
  | nil => rfl
  | cons a l ih =>
    rw [sortLe]
    cases hpa : p a with
    | true =>
      rw [filter_insertLe_pos le p a (sortLe le l) hpa ?_,
        List.filter_cons_of_pos hpa,
        ih (fun x hx y hy => h x (List.mem_cons_of_mem a hx) y
          (List.mem_cons_of_mem a hy))]
      intro b hb hpb
      have hbl : b ∈ l := (sortLe_perm le l).mem_iff.mp hb
      exact h a (List.mem_cons_self a l) b (List.mem_cons_of_mem a hbl) hpa hpb
    | false =>
      rw [filter_insertLe_neg le p a (sortLe le l) hpa,
        List.filter_cons_of_neg (by simp [hpa]),
        ih (fun x hx y hy => h x (List.mem_cons_of_mem a hx) y
          (List.mem_cons_of_mem a hy))]

/-- `lastOpt` of a cons-cons skips the head. -/
theorem lastOpt_cons_cons {α : Type} (a b : α) (l : List α) :
    lastOpt (a :: b :: l) = lastOpt (b :: l) := rfl

/-- `lastOpt` of an appended singleton. -/
theorem lastOpt_append_single {α : Type} (l : List α) (x : α) :
    lastOpt (l ++ [x]) = some x := by
  induction l with
  | nil => rfl
  | cons a l ih =>
    cases l with
    | nil => rfl
    | cons b bs =>
      have h1 : (a :: b :: bs) ++ [x] = a :: b :: (bs ++ [x]) := by simp
      have h2 : b :: (bs ++ [x]) = (b :: bs) ++ [x] := by simp
      rw [h1, lastOpt_cons_cons, h2]
      exact ih

/-- The last element belongs to the list. -/
theorem lastOpt_mem {α : Type} : ∀ {l : List α} {a : α},
    lastOpt l = some a → a ∈ l
  | [], _, h => by simp [lastOpt] at h
  | [b], a, h => by
    simp [lastOpt] at h
    simp [h]
  | _ :: c :: cs, a, h => by
    rw [lastOpt_cons_cons] at h
    exact List.mem_cons_of_mem _ (lastOpt_mem h)

/-- A non-empty list has a last element. -/
theorem lastOpt_ne_nil {α : Type} : ∀ (l : List α), l ≠ [] →
    ∃ a, lastOpt l = some a
  | [], h => absurd rfl h
  | [a], _ => ⟨a, rfl⟩
  | _ :: b :: l, _ => lastOpt_ne_nil (b :: l) (by simp)

/-- Lookup after `Map.set`. -/
theorem getA_setA (m : List (String × OntologyClass)) (k : String)
    (v : OntologyClass) (k' : String) :
    getA (setA m k v) k' = if k = k' then some v else getA m k' := by
  induction m with
  | nil => simp [setA, getA, beq_iff_eq]
  | cons p rest ih =>
    obtain ⟨k0, v0⟩ := p
    by_cases h0 : k0 = k
    · subst h0
      simp only [setA, beq_self_eq_true, if_true, getA]
      by_cases h1 : k0 = k' <;> simp [h1, beq_iff_eq]
    · have hb : (k0 == k) = false := by simp [h0]
      simp only [setA, hb, Bool.false_eq_true, if_false, getA]
      by_cases h1 : k0 = k'
      · subst h1
        have hk : ¬ k = k0 := fun h => h0 h.symm
        simp [hk, beq_iff_eq]
      · simp [h1, beq_iff_eq, ih]

/-- Keys after `Map.set`: unchanged when present, appended when new. -/
theorem keys_setA (m : List (String × OntologyClass)) (k : String)
    (v : OntologyClass) :
    (setA m k v).map (fun p => p.1) =
      if k ∈ m.map (fun p => p.1) then m.map (fun p => p.1)
      else m.map (fun p => p.1) ++ [k] := by
  induction m with
  | nil => simp [setA]
  | cons p rest ih =>
    obtain ⟨k0, v0⟩ := p
    by_cases h0 : k0 = k
    · subst h0
      simp [setA]
    · have hb : (k0 == k) = false := by simp [h0]
      have hk : ¬ k = k0 := fun h => h0 h.symm
      simp only [setA, hb, Bool.false_eq_true, if_false, List.map_cons,
        List.mem_cons, hk, false_or, ih]
      by_cases h1 : k ∈ rest.map (fun p => p.1) <;> simp [h1]

/-- Lookup-with-default after a `push`. -/
theorem getAD_pushAt (m : List (String × List String)) (k v k' : String) :
    getAD (pushAt m k v) k' =
      if k = k' then getAD m k' ++ [v] else getAD m k' := by
  induction m with
  | nil => by_cases h : k = k' <;> simp [pushAt, getAD, getA, h, beq_iff_eq]
  | cons p rest ih =>
    obtain ⟨k0, l0⟩ := p
    by_cases h0 : k0 = k
    · subst h0
      simp only [pushAt, beq_self_eq_true, if_true]
      by_cases h1 : k0 = k' <;> simp [getAD, getA, h1, beq_iff_eq]
    · have hb : (k0 == k) = false := by simp [h0]
      simp only [pushAt, hb, Bool.false_eq_true, if_false]
      by_cases h1 : k0 = k'
      · subst h1
        have hk : ¬ k = k0 := fun h => h0 h.symm
        simp [getAD, getA, hk, beq_iff_eq]
      · have hb1 : (k0 == k') = false := by simp [h1]
        simp only [getAD, getA, hb1, Bool.false_eq_true, if_false]
        exact ih

/-- Lookup through the value-rewriting map of the build step. -/
theorem getA_mapVal {α β : Type} (f : String → α → β)
    (m : List (String × α)) (k : String) :
    getA (m.map (fun p => (p.1, f p.1 p.2))) k = (getA m k).map (f k) := by
  induction m with
  | nil => rfl
  | cons p rest ih =>
    obtain ⟨k0, v0⟩ := p
    by_cases h0 : k0 = k
    · subst h0
      simp [getA]
    · have hb : (k0 == k) = false := by simp [h0]
      simp only [List.map_cons, getA, hb, Bool.false_eq_true, if_false]
      exact ih

/-- A declaration with no truthy identifier is a no-op for the scan. -/
theorem processClass_none (st : ParseState) (c : ClassElem)
    (h : extractId c = none) : processClass st c = st := by
  simp [processClass, h]

/-- Unfolding of the scan step for an indexed declaration. -/
theorem processClass_some (st : ParseState) (c : ClassElem) (id : String)
    (h : extractId c = some id) :
    processClass st c =
      c.subResources.foldl (processSub id)
        (ParseState.mk
          (setA st.classMap id
            (OntologyClass.mk id (extractLabel c id) (extractDescription c)
              [] []))
          st.parentChildMap st.childParentMap) := by
  simp [processClass, h]

/-- The subclass loop never touches the class map. -/
theorem classMap_subfold (id : String) (subs : List (Option String))
    (st : ParseState) :
    (subs.foldl (processSub id) st).classMap = st.classMap := by
  induction subs generalizing st with
  | nil => rfl
  | cons s ss ih =>
    rw [List.foldl_cons, ih]
    cases h : truthy s <;> simp [processSub, h]

/-- The child-to-parents map after one class's subclass loop. -/
theorem cpMap_subfold (id : String) (subs : List (Option String))
    (st : ParseState) (k : String) :
    getAD ((subs.foldl (processSub id) st).childParentMap) k =
      getAD st.childParentMap k ++
        (if k = id then subs.filterMap truthy else []) := by
  induction subs generalizing st with
  | nil => simp
  | cons s ss ih =>
    rw [List.foldl_cons, ih]
    cases h : truthy s with
    | none => simp [processSub, h, List.filterMap_cons]
    | some parent =>
      simp only [processSub, h, List.filterMap_cons, getAD_pushAt]
      by_cases hk : k = id
      · subst hk
        simp [getAD_pushAt]
      · have hk' : ¬ id = k := fun hx => hk hx.symm
        simp [getAD_pushAt, hk, hk']

/-- The parent-to-children map after one class's subclass loop. -/
theorem pcMap_subfold (id : String) (subs : List (Option String))
    (st : ParseState) (k : String) :
    getAD ((subs.foldl (processSub id) st).parentChildMap) k =
      getAD st.parentChildMap k ++
        ((subs.filterMap truthy).filter (fun p => p == k)).map
          (fun _ => id) := by
  induction subs generalizing st with
  | nil => simp
  | cons s ss ih =>
    rw [List.foldl_cons, ih]
    cases h : truthy s with
    | none => simp [processSub, h, List.filterMap_cons]
    | some parent =>
      simp only [processSub, h, List.filterMap_cons, getAD_pushAt]
      by_cases hk : parent = k
      · subst hk
        simp [getAD_pushAt, List.filter_cons]
      · have hb : (parent == k) = false := by simp [hk]
        simp [getAD_pushAt, List.filter_cons, hb, hk]

/-- The edges one class contributes for a fixed child key. -/
theorem edgesOfClass_filter_fst (c : ClassElem) (id : String)
    (h : extractId c = some id) (k : String) :
    ((edgesOfClass c).filter (fun e => e.1 == k)).map (fun e => e.2) =
      if k = id then c.subResources.filterMap truthy else [] := by
  rw [edgesOfClass, h]
  by_cases hk : k = id
  · subst hk
    simp [List.filter_map, Function.comp_def]
  · have hb : (id == k) = false := by
      simp only [beq_eq_false_iff_ne]
      exact fun hx => hk hx.symm
    simp [List.filter_map, Function.comp_def, hb, hk]

/-- The edges one class contributes for a fixed parent key. -/
theorem edgesOfClass_filter_snd (c : ClassElem) (id : String)
    (h : extractId c = some id) (k : String) :
    ((edgesOfClass c).filter (fun e => e.2 == k)).map (fun e => e.1) =
      ((c.subResources.filterMap truthy).filter (fun p => p == k)).map
        (fun _ => id) := by
  rw [edgesOfClass, h]
  simp [List.filter_map, Function.comp_def]

/-- A skipped class contributes no edges. -/
theorem edgesOfClass_none (c : ClassElem) (h : extractId c = none) :
    edgesOfClass c = [] := by
  rw [edgesOfClass, h]

/-- The child-to-parents map over the whole scan: exactly the recorded
parents of `k`, in scan order. -/
theorem cpMap_foldl (d : List ClassElem) (st : ParseState) (k : String) :
    getAD ((d.foldl processClass st).childParentMap) k =
      getAD st.childParentMap k ++ parentsSpec d k := by
  induction d generalizing st with
  | nil => simp [parentsSpec, edgesOfDoc]
  | cons c cs ih =>
    rw [List.foldl_cons, ih]
    have hspec : parentsSpec (c :: cs) k =
        ((edgesOfClass c).filter (fun e => e.1 == k)).map (fun e => e.2) ++
          parentsSpec cs k := by
      simp [parentsSpec, edgesOfDoc, List.filter_append]
    rw [hspec]
    cases hid : extractId c with
    | none =>
      rw [edgesOfClass_none c hid, processClass_none st c hid]
      simp
    | some id =>
      rw [edgesOfClass_filter_fst c id hid k,
        processClass_some st c id hid, cpMap_subfold]
      simp [List.append_assoc]

/-- The parent-to-children map over the whole scan: exactly the
recorded children of `k`, in scan order. -/
theorem pcMap_foldl (d : List ClassElem) (st : ParseState) (k : String) :
    getAD ((d.foldl processClass st).parentChildMap) k =
      getAD st.parentChildMap k ++ childrenSpec d k := by
  induction d generalizing st with
  | nil => simp [childrenSpec, edgesOfDoc]
  | cons c cs ih =>
    rw [List.foldl_cons, ih]
    have hspec : childrenSpec (c :: cs) k =
        ((edgesOfClass c).filter (fun e => e.2 == k)).map (fun e => e.1) ++
          childrenSpec cs k := by
      simp [childrenSpec, edgesOfDoc, List.filter_append]
    rw [hspec]
    cases hid : extractId c with
    | none =>
      rw [edgesOfClass_none c hid, processClass_none st c hid]
      simp
    | some id =>
      rw [edgesOfClass_filter_snd c id hid k,
        processClass_some st c id hid, pcMap_subfold]
      simp [List.append_assoc]

/-- The class map over the whole scan: the entry of `k` carries the
label and description of the last declaration with identifier `k`,
still with empty edge fields. -/
theorem classMap_foldl (d : List ClassElem) (st : ParseState) (k : String) :
    getA ((d.foldl processClass st).classMap) k =
      match lastOpt ((declsOf d).filter (fun q => q.1 == k)) with
      | some q => some (OntologyClass.mk k q.2.1 q.2.2 [] [])
      | none => getA st.classMap k := by
  induction d generalizing st with
  | nil => simp [declsOf, lastOpt]
  | cons c cs ih =>
    rw [List.foldl_cons, ih]
    cases hid : extractId c with
    | none =>
      rw [processClass_none st c hid]
      have hdecl : declsOf (c :: cs) = declsOf cs := by
        simp [declsOf, List.filterMap_cons, hid]
      rw [hdecl]
    | some id =>
      have hcm : (processClass st c).classMap =
          setA st.classMap id
            (OntologyClass.mk id (extractLabel c id) (extractDescription c)
              [] []) := by
        rw [processClass_some st c id hid, classMap_subfold]
      have hdecl : declsOf (c :: cs) =
          (id, extractLabel c id, extractDescription c) :: declsOf cs := by
        simp [declsOf, List.filterMap_cons, hid]
      rw [hdecl]
      by_cases hk : id = k
      · subst hk
        rw [List.filter_cons_of_pos (by simp)]
        cases hrest : (declsOf cs).filter (fun q => q.1 == id) with
        | nil => simp [lastOpt, hcm, getA_setA]
        | cons q qs =>
          rw [lastOpt_cons_cons]
          obtain ⟨a, ha⟩ := lastOpt_ne_nil (q :: qs) (by simp)
          rw [ha]
      · have hb : ((id, extractLabel c id, extractDescription c).1 == k) =
            false := by
          simp only [beq_eq_false_iff_ne]
          exact hk
        rw [List.filter_cons_of_neg (by simp [hb])]
        cases hrest : (declsOf cs).filter (fun q => q.1 == k) with
        | nil => simp [hcm, getA_setA, hk]
        | cons q qs =>
          obtain ⟨a, ha⟩ := lastOpt_ne_nil (q :: qs) (by simp)
          rw [ha]

/-- Seen-set extensionality for first-occurrence deduplication. -/
theorem dedupKeepFirst_congr (s1 s2 : List String)
    (h : ∀ x, x ∈ s1 ↔ x ∈ s2) (l : List String) :
    dedupKeepFirst s1 l = dedupKeepFirst s2 l := by
  induction l generalizing s1 s2 with
  | nil => rfl
  | cons a l ih =>
    by_cases ha : a ∈ s1
    · rw [dedupKeepFirst, if_pos ha, dedupKeepFirst, if_pos ((h a).mp ha)]
      exact ih s1 s2 h
    · have ha2 : a ∉ s2 := fun hx => ha ((h a).mpr hx)
      rw [dedupKeepFirst, if_neg ha, dedupKeepFirst, if_neg ha2]
      refine congrArg _ (ih (a :: s1) (a :: s2) ?_)
      intro x
      simp [h x]

/-- Membership in a first-occurrence deduplication. -/
theorem mem_dedupKeepFirst (x : String) : ∀ (seen l : List String),
    x ∈ dedupKeepFirst seen l ↔ x ∈ l ∧ x ∉ seen
  | seen, [] => by simp [dedupKeepFirst]
  | seen, a :: l => by
    by_cases ha : a ∈ seen
    · rw [dedupKeepFirst, if_pos ha, mem_dedupKeepFirst x seen l]
      constructor
      · exact fun ⟨h1, h2⟩ => ⟨List.mem_cons_of_mem a h1, h2⟩
      · rintro ⟨h1, h2⟩
        rcases List.mem_cons.mp h1 with rfl | h1
        · exact absurd ha h2
        · exact ⟨h1, h2⟩
    · rw [dedupKeepFirst, if_neg ha]
      constructor
      · intro hx
        rcases List.mem_cons.mp hx with rfl | hx
        · exact ⟨List.mem_cons_self x l, ha⟩
        · obtain ⟨h1, h2⟩ := (mem_dedupKeepFirst x (a :: seen) l).mp hx
          exact ⟨List.mem_cons_of_mem a h1,
            fun hs => h2 (List.mem_cons_of_mem a hs)⟩
      · rintro ⟨h1, h2⟩
        rcases List.mem_cons.mp h1 with rfl | h1
        · exact List.mem_cons_self x _
        · by_cases hxa : x = a
          · subst hxa
            exact List.mem_cons_self x _
          · refine List.mem_cons_of_mem a
              ((mem_dedupKeepFirst x (a :: seen) l).mpr ⟨h1, ?_⟩)
            intro hs
            rcases List.mem_cons.mp hs with rfl | hs
            · exact hxa rfl
            · exact h2 hs

/-- First-occurrence deduplication has no duplicates. -/
theorem nodup_dedupKeepFirst : ∀ (seen l : List String),
    (dedupKeepFirst seen l).Nodup
  | seen, [] => List.nodup_nil
  | seen, a :: l => by
    by_cases ha : a ∈ seen
    · rw [dedupKeepFirst, if_pos ha]
      exact nodup_dedupKeepFirst seen l
    · rw [dedupKeepFirst, if_neg ha]
      refine List.Nodup.cons ?_ (nodup_dedupKeepFirst (a :: seen) l)
      intro hmem
      exact ((mem_dedupKeepFirst a (a :: seen) l).mp hmem).2
        (List.mem_cons_self a seen)

/-- The key list over the whole scan: existing keys, then the new
identifiers in first-occurrence order. -/
theorem keys_foldl (d : List ClassElem) (st : ParseState) :
    (d.foldl processClass st).classMap.map (fun p => p.1) =
      st.classMap.map (fun p => p.1) ++
        dedupKeepFirst (st.classMap.map (fun p => p.1))
          (d.filterMap extractId) := by
  induction d generalizing st with
  | nil => simp [dedupKeepFirst]
  | cons c cs ih =>
    rw [List.foldl_cons, ih]
    cases hid : extractId c with
    | none =>
      rw [processClass_none st c hid]
      have : (c :: cs).filterMap extractId = cs.filterMap extractId := by
        simp [List.filterMap_cons, hid]
      rw [this]
    | some id =>
      have hcm : (processClass st c).classMap =
          setA st.classMap id
            (OntologyClass.mk id (extractLabel c id) (extractDescription c)
              [] []) := by
        rw [processClass_some st c id hid, classMap_subfold]
      have hfm : (c :: cs).filterMap extractId =
          id :: cs.filterMap extractId := by
        simp [List.filterMap_cons, hid]
      rw [hcm, hfm, keys_setA]
      by_cases hmem : id ∈ st.classMap.map (fun p => p.1)
      · rw [if_pos hmem, dedupKeepFirst, if_pos hmem]
      · rw [if_neg hmem, dedupKeepFirst, if_neg hmem]
        rw [dedupKeepFirst_congr
          (st.classMap.map (fun p => p.1) ++ [id])
          (id :: st.classMap.map (fun p => p.1))
          (by intro x; simp [or_comm]) (cs.filterMap extractId)]
        simp

/-- Lookup through the build step that fills the edge fields. -/
theorem getA_fill (pc cp : List (String × List String))
    (m : List (String × OntologyClass)) (k : String) :
    getA (m.map (fun p => (p.1,
        { p.2 with children := getAD pc p.1, parents := getAD cp p.1 }))) k =
      (getA m k).map (fun v =>
        { v with children := getAD pc k, parents := getAD cp k }) :=
  getA_mapVal
    (fun kk v => { v with children := getAD pc kk, parents := getAD cp kk })
    m k

/-- Full characterisation of one entry of the parsed class map: the
entry of `k`, when `k` is declared, has identifier `k`, the label and
description of the last declaration of `k`, and the recorded children
and parents of `k`. -/
theorem parseOWL_getA (lc : String → String → Bool) (d : List ClassElem)
    (k : String) :
    getA (parseOWL lc d).classMap k =
      match lastOpt ((declsOf d).filter (fun q => q.1 == k)) with
      | some q => some (OntologyClass.mk k q.2.1 q.2.2 (childrenSpec d k)
          (parentsSpec d k))
      | none => none := by
  have h3 : getA (parseOWL lc d).classMap k =
      (getA (buildState d).classMap k).map (fun v =>
        { v with children := getAD (buildState d).parentChildMap k,
                 parents := getAD (buildState d).childParentMap k }) :=
    getA_fill (buildState d).parentChildMap (buildState d).childParentMap
      (buildState d).classMap k
  rw [h3]
  simp only [buildState]
  rw [classMap_foldl d ⟨[], [], []⟩ k, cpMap_foldl d ⟨[], [], []⟩ k,
    pcMap_foldl d ⟨[], [], []⟩ k]
  cases hl : lastOpt ((declsOf d).filter (fun q => q.1 == k)) with
  | none => simp [getA]
  | some q => simp [getAD, getA]

/-- The keys of the parsed class map: the extracted identifiers in
first-occurrence order. -/
theorem parseOWL_keys (lc : String → String → Bool) (d : List ClassElem) :
    (parseOWL lc d).classMap.map (fun p => p.1) =
      dedupKeepFirst [] (d.filterMap extractId) := by
  have h1 : (parseOWL lc d).classMap.map (fun p => p.1) =
      (buildState d).classMap.map (fun p => p.1) := by
    show ((buildState d).classMap.map _).map _ = _
    rw [List.map_map]
    rfl
  rw [h1]
  simp only [buildState]
  rw [keys_foldl]
  simp

/-- The root list of the parsed index, as the source computes it. -/
theorem parseOWL_roots (lc : String → String → Bool) (d : List ClassElem) :
    (parseOWL lc d).roots =
      if (parentlessOf (parseOWL lc d)).isEmpty then
        sortLe (labelLe lc) ((valsOf (parseOWL lc d)).take 10)
      else sortLe (labelLe lc) (parentlessOf (parseOWL lc d)) := rfl

/-- The identifiers of the indexed declarations. -/
theorem declsOf_fst (d : List ClassElem) :
    (declsOf d).map (fun q => q.1) = d.filterMap extractId := by
  induction d with
  | nil => rfl
  | cons c cs ih =>
    cases h : extractId c with
    | none =>
      simp only [declsOf, List.filterMap_cons, h, Option.map_none]
      exact ih
    | some id =>
      have hih := ih
      simp only [declsOf] at hih ⊢
      simp [List.filterMap_cons, h, hih]

/-- Taking ten elements of a non-empty list is non-empty. -/
theorem take_ten_ne_nil {α : Type} (l : List α) (h : l ≠ []) :
    l.take 10 ≠ [] := by
  cases l with
  | nil => exact absurd rfl h
  | cons a l => simp [List.take]

/-- The length comparator is transitive. -/
theorem lcLen_trans : ∀ a b c, lcLen a b = true → lcLen b c = true →
    lcLen a c = true := by
  intro a b c
  simp only [lcLen, decide_eq_true_eq]
  omega

/-- The length comparator is total. -/
theorem lcLen_total : ∀ a b, lcLen a b = true ∨ lcLen b a = true := by
  intro a b
  simp only [lcLen, decide_eq_true_eq]
  omega

/-- A recorded parent edge read backwards: if `p` is recorded among
the parents of `k`, then `k` is recorded among the children of `p`. -/
theorem mem_parentsSpec_children (d : List ClassElem) (k p : String)
    (h : p ∈ parentsSpec d k) : k ∈ childrenSpec d p := by
  rw [parentsSpec] at h
  obtain ⟨e, he, hep⟩ := List.mem_map.mp h
  obtain ⟨heE, heK⟩ := List.mem_filter.mp he
  rw [childrenSpec]
  refine List.mem_map.mpr ⟨e, List.mem_filter.mpr ⟨heE, ?_⟩, ?_⟩
  · rw [hep]
    exact beq_self_eq_true p
  · exact (beq_iff_eq.mp heK)

/-- C3: for every document, `parse` computes `roots` as exactly the
declared classes whose `parents` set is empty, sorted by label under
the (locale) comparator; when that set is empty it instead sorts the
first 10 declared classes taken in declaration order; hence `roots` is
non-empty whenever `classesById` is non-empty.  The final conjunct
pins down declaration order: the class-map keys are the extracted
identifiers in first-occurrence order. -/
theorem c3_roots_policy (lc : String → String → Bool)
    (htrans : ∀ a b c, lc a b = true → lc b c = true → lc a c = true)
    (htotal : ∀ a b, lc a b = true ∨ lc b a = true)
    (d : List ClassElem) :
    (parentlessOf (parseOWL lc d) ≠ [] →
      (parseOWL lc d).roots.Perm (parentlessOf (parseOWL lc d))) ∧
    (parentlessOf (parseOWL lc d) = [] →
      (parseOWL lc d).roots.Perm ((valsOf (parseOWL lc d)).take 10)) ∧
    (parseOWL lc d).roots.Pairwise (fun a b => lc a.label b.label = true) ∧
    ((parseOWL lc d).classMap ≠ [] → (parseOWL lc d).roots ≠ []) ∧
    (parseOWL lc d).classMap.map (fun p => p.1) =
      dedupKeepFirst [] (d.filterMap extractId) := by
  have hlt : ∀ a b c : OntologyClass, labelLe lc a b = true →
      labelLe lc b c = true → labelLe lc a c = true :=
    fun a b c h1 h2 => htrans a.label b.label c.label h1 h2
  have hlo : ∀ a b : OntologyClass,
      labelLe lc a b = true ∨ labelLe lc b a = true :=
    fun a b => htotal a.label b.label
  refine ⟨?_, ?_, ?_, ?_, parseOWL_keys lc d⟩
  · intro hne
    rw [parseOWL_roots, if_neg (by simpa [List.isEmpty_iff] using hne)]
    exact sortLe_perm _ _
  · intro heq
    rw [parseOWL_roots, if_pos (by simpa [List.isEmpty_iff] using heq)]
    exact sortLe_perm _ _
  · rw [parseOWL_roots]
    by_cases h : (parentlessOf (parseOWL lc d)).isEmpty
    · rw [if_pos h]
      exact sortLe_pairwise _ hlt hlo _
    · rw [if_neg h]
      exact sortLe_pairwise _ hlt hlo _
  · intro hcm
    have hvals : valsOf (parseOWL lc d) ≠ [] := by
      intro h
      exact hcm (List.map_eq_nil_iff.mp h)
    rw [parseOWL_roots]
    by_cases h : (parentlessOf (parseOWL lc d)).isEmpty
    · rw [if_pos h]
      exact sortLe_ne_nil _ _ (take_ten_ne_nil _ hvals)
    · rw [if_neg h]
      exact sortLe_ne_nil _ _ (by simpa [List.isEmpty_iff] using h)

/-- Witness for C3: on the three-class example, the single parentless
class `A` (label `Alpha`) is the root set. -/
theorem c3_roots_policy_witness :
    (parseOWL lcLen treeDoc).roots.Perm (parentlessOf (parseOWL lcLen treeDoc)) ∧
    (parseOWL lcLen treeDoc).roots.map (fun n => n.label) = ["Alpha"] :=
  ⟨(c3_roots_policy lcLen lcLen_trans lcLen_total treeDoc).1 (by decide),
   by decide⟩

/-- C5: for every parsed index and id, `childrenOf` returns the
declared children of `id` resolved through `classesById` with
unresolved identifiers dropped, as a list that is a permutation of the
resolved children, sorted by label, and stable on ties (any set of
mutually tying selected elements keeps its original relative order);
an `id` that is not a key yields the empty sequence. -/
theorem c5_childrenOf (lc : String → String → Bool)
    (htrans : ∀ a b c, lc a b = true → lc b c = true → lc a c = true)
    (htotal : ∀ a b, lc a b = true ∨ lc b a = true)
    (d : List ClassElem) (id : String) :
    (getA (parseOWL lc d).classMap id = none →
      getChildNodes lc (parseOWL lc d) id = []) ∧
    (∀ node, getA (parseOWL lc d).classMap id = some node →
      (getChildNodes lc (parseOWL lc d) id).Perm
        (node.children.filterMap (getA (parseOWL lc d).classMap)) ∧
      (getChildNodes lc (parseOWL lc d) id).Pairwise
        (fun a b => lc a.label b.label = true) ∧
      (∀ p : OntologyClass → Bool,
        (∀ x ∈ node.children.filterMap (getA (parseOWL lc d).classMap),
          ∀ y ∈ node.children.filterMap (getA (parseOWL lc d).classMap),
            p x = true → p y = true → lc x.label y.label = true) →
        (getChildNodes lc (parseOWL lc d) id).filter p =
          (node.children.filterMap (getA (parseOWL lc d).classMap)).filter p)) := by
  have hlt : ∀ a b c : OntologyClass, labelLe lc a b = true →
      labelLe lc b c = true → labelLe lc a c = true :=
    fun a b c h1 h2 => htrans a.label b.label c.label h1 h2
  have hlo : ∀ a b : OntologyClass,
      labelLe lc a b = true ∨ labelLe lc b a = true :=
    fun a b => htotal a.label b.label
  constructor
  · intro h
    rw [getChildNodes, h]
  · intro node h
    have hg : getChildNodes lc (parseOWL lc d) id =
        sortLe (labelLe lc)
          (node.children.filterMap (getA (parseOWL lc d).classMap)) := by
      rw [getChildNodes, h]
    refine ⟨?_, ?_, ?_⟩
    · rw [hg]
      exact sortLe_perm _ _
    · rw [hg]
      exact sortLe_pairwise _ hlt hlo _
    · intro p hp
      rw [hg]
      exact filter_sortLe _ p _ hp

/-- Witness for C5: on the three-class example, the unknown id yields
the empty sequence, and the children of `A` resolve to `B` and `C`. -/
theorem c5_childrenOf_witness :
    getChildNodes lcLen treeIdx "missing" = [] ∧
    (getChildNodes lcLen treeIdx "A").Perm
      ((OntologyClass.mk "A" "Alpha" "" ["B", "C"] []).children.filterMap
        (getA treeIdx.classMap)) :=
  ⟨(c5_childrenOf lcLen lcLen_trans lcLen_total treeDoc "missing").1
     (by decide),
   ((c5_childrenOf lcLen lcLen_trans lcLen_total treeDoc "A").2
     (OntologyClass.mk "A" "Alpha" "" ["B", "C"] []) (by decide)).1⟩

/-- C6: for every parsed index, every class `c`, and every `p` in
`c.parents` that is itself a key of `classesById`, `c.id` is an
element of `classesById[p].children`. -/
theorem c6_inverse_consistency (lc : String → String → Bool)
    (d : List ClassElem) (k p : String) (c pc : OntologyClass)
    (hc : getA (parseOWL lc d).classMap k = some c)
    (hp : p ∈ c.parents)
    (hpc : getA (parseOWL lc d).classMap p = some pc) :
    c.id ∈ pc.children := by
  have h1 := parseOWL_getA lc d k
  rw [hc] at h1
  have h2 := parseOWL_getA lc d p
  rw [hpc] at h2
  cases hl1 : lastOpt ((declsOf d).filter (fun q => q.1 == k)) with
  | none =>
    rw [hl1] at h1
    cases h1
  | some q1 =>
    rw [hl1] at h1
    cases hl2 : lastOpt ((declsOf d).filter (fun q => q.1 == p)) with
    | none =>
      rw [hl2] at h2
      cases h2
    | some q2 =>
      rw [hl2] at h2
      have hceq : c = OntologyClass.mk k q1.2.1 q1.2.2 (childrenSpec d k)
          (parentsSpec d k) := Option.some.inj h1
      have hpceq : pc = OntologyClass.mk p q2.2.1 q2.2.2 (childrenSpec d p)
          (parentsSpec d p) := Option.some.inj h2
      rw [hceq, hpceq]
      exact mem_parentsSpec_children d k p (by rw [hceq] at hp; exact hp)

/-- Witness for C6: in the three-class example, `A ∈ B.parents` and
`B ∈ A.children`. -/
theorem c6_inverse_consistency_witness :
    (OntologyClass.mk "B" "Bravo" "" [] ["A"]).id ∈
      (OntologyClass.mk "A" "Alpha" "" ["B", "C"] []).children :=
  c6_inverse_consistency lcLen treeDoc "B" "A"
    (OntologyClass.mk "B" "Bravo" "" [] ["A"])
    (OntologyClass.mk "A" "Alpha" "" ["B", "C"] [])
    (by decide) (by decide) (by decide)

/-- `a || b` for a present string: keep it when non-empty, else `b`. -/
theorem jsOr_some (s b : String) :
    jsOr (some s) b = if s.data.isEmpty then b else s := by
  by_cases h : s.data.isEmpty <;> simp [jsOr, truthy, h]

/-- Emptiness of the character list is emptiness of the string. -/
theorem str_empty_iff (s : String) : s.data.isEmpty = true ↔ s = "" := by
  constructor
  · intro h
    apply String.ext
    have hd : s.data = [] := List.isEmpty_iff.mp h
    rw [hd]
  · intro h
    subst h
    rfl

/-- C7: a class declaration lacking both a truthy `rdf:about` and a
truthy `rdf:ID` is skipped — parsing with it is parsing without it —
and the empty document (what an unparseable input reduces to) yields an
index with zero classes and zero roots; `parseOWL` is total by
construction, so no input makes it throw. -/
theorem c7_malformed_skipped (lc : String → String → Bool)
    (pre post : List ClassElem) (e : ClassElem)
    (h1 : truthy e.aboutAttr = none) (h2 : truthy e.idAttr = none) :
    parseOWL lc (pre ++ e :: post) = parseOWL lc (pre ++ post) ∧
    parseOWL lc [] = OntologyData.mk [] [] := by
  constructor
  · have hid : extractId e = none := by
      rw [extractId, h1, h2]
    have hb : buildState (pre ++ e :: post) = buildState (pre ++ post) := by
      simp only [buildState, List.foldl_append, List.foldl_cons]
      rw [processClass_none _ e hid]
    unfold parseOWL
    rw [hb]
  · rfl

/-- Witness for C7: a declaration with absent `rdf:about` and an empty
`rdf:ID` between two well-formed declarations changes nothing. -/
theorem c7_malformed_skipped_witness :
    parseOWL lcLen ([elemA] ++ skipElem :: [elemB]) =
      parseOWL lcLen ([elemA] ++ [elemB]) :=
  (c7_malformed_skipped lcLen [elemA] [elemB] skipElem (by decide)
    (by decide)).1

/-- C8 counterexample: declaring the same subclass edge `A → B` twice
produces the duplicated lists `parents = [B, B]` and
`children = [A, A]`, so the fields are not duplicate-free. -/
theorem c8_counterexample :
    (getA dupEdgeIdx.classMap "A").map (fun n => n.parents) =
      some ["B", "B"] ∧
    (getA dupEdgeIdx.classMap "B").map (fun n => n.children) =
      some ["A", "A"] ∧
    ¬ (["B", "B"] : List String).Nodup :=
  ⟨by decide, by decide, by decide⟩

/-- C8 amended: `children` and `parents` are lists with one entry per
recorded edge occurrence, in scan order; an edge declared twice
therefore appears twice (the fields are not deduplicated sets). -/
theorem c8_edge_occurrence_lists (lc : String → String → Bool)
    (d : List ClassElem) (k : String) (c : OntologyClass)
    (h : getA (parseOWL lc d).classMap k = some c) :
    c.parents = parentsSpec d k ∧ c.children = childrenSpec d k := by
  have h1 := parseOWL_getA lc d k
  rw [h] at h1
  cases hl : lastOpt ((declsOf d).filter (fun q => q.1 == k)) with
  | none =>
    rw [hl] at h1
    cases h1
  | some q =>
    rw [hl] at h1
    rw [Option.some.inj h1]
    exact ⟨rfl, rfl⟩

/-- Witness for C8 (amended) at the duplicated-edge document. -/
theorem c8_edge_occurrence_lists_witness :
    (OntologyClass.mk "A" "Alpha" "" [] ["B", "B"]).parents =
      parentsSpec [dupEdgeElem, plainB] "A" ∧
    (OntologyClass.mk "A" "Alpha" "" [] ["B", "B"]).children =
      childrenSpec [dupEdgeElem, plainB] "A" :=
  c8_edge_occurrence_lists lcLen [dupEdgeElem, plainB] "A"
    (OntologyClass.mk "A" "Alpha" "" [] ["B", "B"]) (by decide)

/-- C9: when an identifier is declared (possibly several times), the
class map keeps exactly one entry for it; that entry's label and
description come from the last declaration with that identifier in
document order, while its `parents` — and every class's inverse
`children` entries — accumulate the edges recorded from all
declarations. -/
theorem c9_duplicate_ids (lc : String → String → Bool) (d : List ClassElem)
    (id : String) (h : id ∈ d.filterMap extractId) :
    (∃ lbl dsc,
      lastOpt ((declsOf d).filter (fun q => q.1 == id)) =
        some (id, lbl, dsc) ∧
      getA (parseOWL lc d).classMap id =
        some (OntologyClass.mk id lbl dsc (childrenSpec d id)
          (parentsSpec d id))) ∧
    ((parseOWL lc d).classMap.map (fun p => p.1)).count id = 1 ∧
    (∀ p pc, getA (parseOWL lc d).classMap p = some pc →
      pc.children = childrenSpec d p) := by
  refine ⟨?_, ?_, ?_⟩
  · have hmem : id ∈ (declsOf d).map (fun q => q.1) := by
      rw [declsOf_fst]
      exact h
    obtain ⟨q0, hq0, hq0id⟩ := List.mem_map.mp hmem
    have hfne : (declsOf d).filter (fun q => q.1 == id) ≠ [] := by
      intro hnil
      have hin : q0 ∈ (declsOf d).filter (fun q => q.1 == id) :=
        List.mem_filter.mpr ⟨hq0, by rw [hq0id]; exact beq_self_eq_true id⟩
      rw [hnil] at hin
      cases hin
    obtain ⟨q, hq⟩ := lastOpt_ne_nil _ hfne
    have hqmem := lastOpt_mem hq
    have hq1 : q.1 = id := beq_iff_eq.mp (List.mem_filter.mp hqmem).2
    refine ⟨q.2.1, q.2.2, ?_, ?_⟩
    · rw [hq, show q = (id, q.2.1, q.2.2) from by rw [← hq1]]
    · rw [parseOWL_getA, hq]
  · rw [parseOWL_keys]
    have hnd := nodup_dedupKeepFirst [] (d.filterMap extractId)
    have hm : id ∈ dedupKeepFirst [] (d.filterMap extractId) :=
      (mem_dedupKeepFirst id [] _).mpr ⟨h, by simp⟩
    exact List.count_eq_one_of_mem hnd hm
  · intro p pc hpc
    have h1 := parseOWL_getA lc d p
    rw [hpc] at h1
    cases hl : lastOpt ((declsOf d).filter (fun q => q.1 == p)) with
    | none =>
      rw [hl] at h1
      cases h1
    | some q2 =>
      rw [hl] at h1
      rw [Option.some.inj h1]

/-- Witness for C9: the identifier `D` declared twice keeps one entry
with the second declaration's label and the accumulated parents. -/
theorem c9_duplicate_ids_witness :
    ((parseOWL lcLen dupIdDoc).classMap.map (fun p => p.1)).count "D" = 1 ∧
    getA (parseOWL lcLen dupIdDoc).classMap "D" =
      some (OntologyClass.mk "D" "Second" "" [] ["P", "Q"]) := by
  have happ := c9_duplicate_ids lcLen dupIdDoc "D" (by decide)
  refine ⟨happ.2.1, ?_⟩
  obtain ⟨lbl, dsc, hlast, hget⟩ := happ.1
  have hlbl : lbl = "Second" := by
    have : lastOpt ((declsOf dupIdDoc).filter (fun q => q.1 == "D")) =
        some ("D", "Second", "") := by decide
    rw [this] at hlast
    exact (Prod.mk.injEq _ _ _ _).mp
      ((Prod.mk.injEq _ _ _ _).mp (Option.some.inj hlast.symm)).2 |>.1
  have hdsc : dsc = "" := by
    have : lastOpt ((declsOf dupIdDoc).filter (fun q => q.1 == "D")) =
        some ("D", "Second", "") := by decide
    rw [this] at hlast
    exact (Prod.mk.injEq _ _ _ _).mp
      ((Prod.mk.injEq _ _ _ _).mp (Option.some.inj hlast.symm)).2 |>.2
  rw [hget, hlbl, hdsc]
  have hch : childrenSpec dupIdDoc "D" = [] := by decide
  have hpa : parentsSpec dupIdDoc "D" = ["P", "Q"] := by decide
  rw [hch, hpa]

/-- C4 counterexample: for a declaration whose identifier ends in `#`
and that has no nested label element, the code labels the class with
the raw identifier, not with the last non-empty segment `b` that the
claim requires. -/
theorem c4_counterexample :
    (getA (parseOWL lcLen [c4elem]).classMap "http://ex.org/a/b#").map
      (fun n => n.label) = some "http://ex.org/a/b#" ∧
    "http://ex.org/a/b#" ≠ "b" :=
  ⟨by decide, by decide⟩

/-- C4 amended: for every declaration whose identifier is extracted and
that has no nested label element, the label is the final — possibly
empty — segment obtained by splitting the identifier on `#` and then on
`/`; when that final segment is empty (identifier ending in `#` or `/`)
the label falls back to the raw identifier, not to the last non-empty
segment. -/
theorem c4_label_fallback (lc : String → String → Bool)
    (d : List ClassElem) (c : ClassElem) (id : String)
    (h1 : extractId c = some id) (h2 : c.labelTexts = []) :
    ∃ cls, getA (parseOWL lc (d ++ [c])).classMap id = some cls ∧
      cls.label = (if fallbackSeg id = "" then id else fallbackSeg id) := by
  have hdecl : declsOf (d ++ [c]) =
      declsOf d ++ [(id, extractLabel c id, extractDescription c)] := by
    simp [declsOf, List.filterMap_append, List.filterMap_cons, h1]
  have hfilter : (declsOf (d ++ [c])).filter (fun q => q.1 == id) =
      (declsOf d).filter (fun q => q.1 == id) ++
        [(id, extractLabel c id, extractDescription c)] := by
    rw [hdecl, List.filter_append]
    congr 1
    rw [List.filter_cons_of_pos (by simp)]
    rfl
  have hlast : lastOpt ((declsOf (d ++ [c])).filter (fun q => q.1 == id)) =
      some (id, extractLabel c id, extractDescription c) := by
    rw [hfilter, lastOpt_append_single]
  refine ⟨OntologyClass.mk id (extractLabel c id) (extractDescription c)
    (childrenSpec (d ++ [c]) id) (parentsSpec (d ++ [c]) id), ?_, ?_⟩
  · rw [parseOWL_getA, hlast]
  · show extractLabel c id = _
    rw [extractLabel, h2]
    show jsOr none (jsOr (some (fallbackSeg id)) id) = _
    rw [show ∀ b : String, jsOr none b = b from fun b => rfl]
    rw [jsOr_some]
    by_cases hseg : fallbackSeg id = ""
    · rw [if_pos ((str_empty_iff _).mpr hseg), if_pos hseg]
    · rw [if_neg (fun hx => hseg ((str_empty_iff _).mp hx)), if_neg hseg]

/-- Witness for C4 (amended): an identifier with non-empty final
fragment `Seg` gets exactly that fragment as its label. -/
theorem c4_label_fallback_witness :
    ∃ cls, getA (parseOWL lcLen [c4elemSeg]).classMap
        "http://ex.org/x#Seg" = some cls ∧ cls.label = "Seg" := by
  obtain ⟨cls, hget, hlab⟩ := c4_label_fallback lcLen [] c4elemSeg
    "http://ex.org/x#Seg" (by decide) rfl
  refine ⟨cls, hget, ?_⟩
  rw [hlab]
  decide

/-- C10: the empty search term matches every id that is a key of the
class map (at every positive recursion depth), and for an id that is
not a key the search returns `false` for every term. -/
theorem c10_empty_term_and_unknown_id (d : OntologyData) (id : String) :
    (∀ node, getA d.classMap id = some node →
      ∀ n : Nat, hasMatchingChild d (n + 1) id "" = some true) ∧
    (getA d.classMap id = none →
      ∀ (term : String) (n : Nat),
        hasMatchingChild d (n + 1) id term = some false) := by
  constructor
  · intro node h n
    have hj : jsIncludes (toLowerS node.label) (toLowerS "") = true := by
      show containsL (toLowerS "").data (toLowerS node.label).data = true
      rw [show (toLowerS "").data = [] from rfl]
      exact containsL_nil _
    simp only [hasMatchingChild, h]
    rw [if_pos hj]
  · intro h term n
    simp only [hasMatchingChild, h]

/-- Witness for C10 on the two-node-cycle index. -/
theorem c10_empty_term_and_unknown_id_witness :
    hasMatchingChild cycIdx 1 "A" "" = some true ∧
    hasMatchingChild cycIdx 3 "nope" "zzz" = some false :=
  ⟨(c10_empty_term_and_unknown_id cycIdx "A").1
     (OntologyClass.mk "A" "Alpha" "" ["B"] ["B"]) (by decide) 0,
   (c10_empty_term_and_unknown_id cycIdx "nope").2 (by decide) "zzz" 2⟩

/-- C1: the claim requires `matchesSearch` to terminate (return a
boolean) on every parsed index, including cyclic ones.  The code
carries no visited set: on the parsed two-node cycle (`A` parent of
`B`, `B` parent of `A`) with a term matching neither label, the
recursion is still descending at every depth — it never returns a
boolean, for either start node. -/
theorem c1_search_diverges_on_cycle :
    ∀ n : Nat, hasMatchingChild cycIdx n "A" "zzz" = none ∧
      hasMatchingChild cycIdx n "B" "zzz" = none := by
  intro n
  induction n with
  | zero => exact ⟨rfl, rfl⟩
  | succ n ih =>
    obtain ⟨ihA, ihB⟩ := ih
    constructor
    · have hA : getA cycIdx.classMap "A" =
          some (OntologyClass.mk "A" "Alpha" "" ["B"] ["B"]) := by decide
      simp only [hasMatchingChild, hA]
      rw [if_neg (by decide)]
      simp only [anyChildF]
      rw [ihB]
    · have hB : getA cycIdx.classMap "B" =
          some (OntologyClass.mk "B" "Beta" "" ["A"] ["A"]) := by decide
      simp only [hasMatchingChild, hB]
      rw [if_neg (by decide)]
      simp only [anyChildF]
      rw [ihA]

/-- C2: the claimed iff fails on the code.  On the parsed index with
the cycle `A ↔ B` and the sibling `M` (label `Match`) under `A`, the
term `match` is a substring of the label of the reachable class `M`,
yet the search started at `A` never returns: it descends the cycle
branch first and stays there at every depth.  The claim's positive
example does hold: on the node labelled `Metabolic Process` the term
`metab` returns `true` at every positive depth. -/
theorem c2_search_iff_refuted :
    (∀ n : Nat, hasMatchingChild cycIdxM n "A" "match" = none ∧
      hasMatchingChild cycIdxM n "B" "match" = none) ∧
    Reaches cycIdxM "A" "M" ∧
    labelMatch cycIdxM "M" "match" ∧
    (∀ n : Nat, hasMatchingChild metabIdx (n + 1) "MP" "metab" =
      some true) := by
  refine ⟨?_, ?_, ?_, ?_⟩
  · intro n
    induction n with
    | zero => exact ⟨rfl, rfl⟩
    | succ n ih =>
      obtain ⟨ihA, ihB⟩ := ih
      constructor
      · have hA : getA cycIdxM.classMap "A" =
            some (OntologyClass.mk "A" "Alpha" "" ["B", "M"] ["B"]) := by
          decide
        simp only [hasMatchingChild, hA]
        rw [if_neg (by decide)]
        simp only [anyChildF]
        rw [ihB]
      · have hB : getA cycIdxM.classMap "B" =
            some (OntologyClass.mk "B" "Beta" "" ["A"] ["A"]) := by decide
        simp only [hasMatchingChild, hB]
        rw [if_neg (by decide)]
        simp only [anyChildF]
        rw [ihA]
  · exact Reaches.step
      ⟨OntologyClass.mk "A" "Alpha" "" ["B", "M"] ["B"], by decide,
        by decide⟩
      (Reaches.refl "M")
  · exact ⟨OntologyClass.mk "M" "Match" "" [] ["A"], by decide, by decide⟩
  · intro n
    have hM : getA metabIdx.classMap "MP" =
        some (OntologyClass.mk "MP" "Metabolic Process" "" [] []) := by
      decide
    simp only [hasMatchingChild, hM]
    rw [if_pos (by decide)]
